import Mathlib

/-!
Shallow embedding of the `xscache` cache-table library (cachetable.go,
cacheitem.go, cache.go).  Time instants and durations are modelled as `Int`
(Go `time.Time` / `time.Duration` are nanosecond counts); every operation
that calls `time.Now()` in Go takes an explicit `now : Int` parameter.
User-supplied callbacks perform arbitrary I/O in Go; here each operation
returns the list of callback invocations it performs, in order, as `Event`
values, and the table records only whether each callback is configured.
Logging is a no-op for the semantics and is omitted.
-/

namespace Xscache

/-- A single cached item (struct `CacheItem`).  The `aboutToExpire` field
records whether the per-item pre-evict callback is set. -/
structure CacheItem where
  key : Nat
  data : Nat
  lifeSpan : Int
  createdOn : Int
  accessedOn : Int
  accessCount : Int
  aboutToExpire : Bool
deriving DecidableEq

/-- Callback invocations, in the order the Go code performs them, carrying
the argument the Go callback receives. -/
inductive Event where
  | added (item : CacheItem)
  | tableDelete (item : CacheItem)
  | itemEvict (key : Nat)
deriving DecidableEq

/-- The two sentinel errors `ErrKeyNotFound` and `ErrKeyNotFoundOrLoadable`. -/
inductive Err where
  | keyNotFound
  | keyNotFoundOrLoadable
deriving DecidableEq

/-- Struct `CacheTable`.  `items` is the entry map (association list with
unique keys), `cleanupTimer` is the absolute fire time of the pending
cleanup timer (`none` when no timer is armed / it was stopped),
`cleanupInterval` is the duration recorded when the timer was last armed.
`loadData` is the data-loader callback; the two Bool fields record whether
the added-item and about-to-delete-item callbacks are configured. -/
structure CacheTable where
  items : List (Nat × CacheItem)
  cleanupTimer : Option Int
  cleanupInterval : Int
  loadData : Option (Nat → List Nat → Option CacheItem)
  hasAddedItem : Bool
  hasAboutToDeleteItem : Bool

/-- Map lookup `table.items[key]`. -/
def findItem : List (Nat × CacheItem) → Nat → Option CacheItem
  | [], _ => none
  | kv :: rest, key => if kv.1 = key then some kv.2 else findItem rest key

/-- Map deletion `delete(table.items, key)`. -/
def removeKey : List (Nat × CacheItem) → Nat → List (Nat × CacheItem)
  | [], _ => []
  | kv :: rest, key =>
    if kv.1 = key then removeKey rest key else kv :: removeKey rest key

/-- `NewCacheItem` (cacheitem.go): fresh item, created and accessed `now`,
zero access count, no pre-evict callback. -/
def NewCacheItem (key : Nat) (data : Nat) (lifeSpan : Int) (now : Int) :
    CacheItem :=
  ⟨key, data, lifeSpan, now, now, 0, false⟩

/-- `CacheItem.KeepAlive`: stamp the access time and bump the counter. -/
def KeepAlive (item : CacheItem) (now : Int) : CacheItem :=
  { item with accessedOn := now, accessCount := item.accessCount + 1 }

/-- The callback invocations `deleteInternal` performs for one deleted
entry: the table-level about-to-delete callback (receiving the item), then
the item's own about-to-expire callback (receiving the key). -/
def delEvents (flag : Bool) (kv : Nat × CacheItem) : List Event :=
  (if flag then [Event.tableDelete kv.2] else []) ++
    (if kv.2.aboutToExpire then [Event.itemEvict kv.1] else [])

/-- `deleteInternal`: absent key fails with `ErrKeyNotFound`; otherwise the
callbacks fire (table-level first, then the item's own), the entry is
removed from the map and returned. -/
def deleteInternal (t : CacheTable) (key : Nat) :
    CacheTable × List Event × Except Err CacheItem :=
  match findItem t.items key with
  | none => (t, [], Except.error Err.keyNotFound)
  | some r =>
    ({ t with items := removeKey t.items key },
      delEvents t.hasAboutToDeleteItem (key, r),
      Except.ok r)

/-- The loop body of `expirationCheck` over the item map: skip zero
life-span items, delete expired ones through `deleteInternal`, and fold the
smallest remaining life-span into `sm` (with `0` as the "none yet"
sentinel), exactly as the Go `for key, item := range table.items` loop. -/
def sweepLoop (now : Int) :
    List (Nat × CacheItem) → CacheTable → List Event → Int →
      CacheTable × List Event × Int
  | [], t, evs, sm => (t, evs, sm)
  | kv :: rest, t, evs, sm =>
    if kv.2.lifeSpan = 0 then
      sweepLoop now rest t evs sm
    else if kv.2.lifeSpan ≤ now - kv.2.accessedOn then
      let d := deleteInternal t kv.1
      sweepLoop now rest d.1 (evs ++ d.2.1) sm
    else if sm = 0 ∨ kv.2.lifeSpan - (now - kv.2.accessedOn) < sm then
      sweepLoop now rest t evs (kv.2.lifeSpan - (now - kv.2.accessedOn))
    else
      sweepLoop now rest t evs sm

/-- `expirationCheck`: stop the pending timer, sweep the map, record the
smallest remaining duration in `cleanupInterval`, and re-arm the timer for
exactly that duration when it is positive. -/
def expirationCheck (t : CacheTable) (now : Int) : CacheTable × List Event :=
  let res := sweepLoop now t.items { t with cleanupTimer := none } [] 0
  ({ res.1 with
      cleanupInterval := res.2.2,
      cleanupTimer :=
        if 0 < res.2.2 then some (now + res.2.2) else none },
    res.2.1)

/-- `addInternal`: store the item (overwriting any entry at that key), fire
the added-item callback if configured, and trigger `expirationCheck` when
the item's life span is positive and is either the first finite one
(`cleanupInterval = 0`) or shorter than the recorded interval. -/
def addInternal (t : CacheTable) (item : CacheItem) (now : Int) :
    CacheTable × List Event :=
  let t1 := { t with items := removeKey t.items item.key ++ [(item.key, item)] }
  let expDur := t.cleanupInterval
  let evs := if t.hasAddedItem then [Event.added item] else []
  if 0 < item.lifeSpan ∧ (expDur = 0 ∨ item.lifeSpan < expDur) then
    let res := expirationCheck t1 now
    (res.1, evs ++ res.2)
  else
    (t1, evs)

/-- `CacheTable.Add`: build a fresh item and insert it via `addInternal`;
the freshly built item is also returned to the caller. -/
def Add (t : CacheTable) (now : Int) (key : Nat) (data : Nat)
    (lifeSpan : Int) : CacheTable × List Event × CacheItem :=
  let item := NewCacheItem key data lifeSpan now
  let res := addInternal t item now
  (res.1, res.2, item)

/-- `CacheTable.NotFoundAdd`: insert only when the key is absent. -/
def NotFoundAdd (t : CacheTable) (now : Int) (key : Nat) (data : Nat)
    (lifeSpan : Int) : CacheTable × List Event × Bool :=
  match findItem t.items key with
  | some _ => (t, [], false)
  | none =>
    let item := NewCacheItem key data lifeSpan now
    let res := addInternal t item now
    (res.1, res.2, true)

/-- `CacheTable.Value`: hit path keep-alives and returns the stored item;
miss path consults the data loader, inserting the loaded item's data and
life span under the requested key via `Add` but returning the loader's own
item; otherwise the sentinel errors. -/
def Value (t : CacheTable) (now : Int) (key : Nat) (args : List Nat) :
    CacheTable × List Event × Except Err CacheItem :=
  match findItem t.items key with
  | some r =>
    ({ t with items := t.items.map fun kv =>
        if kv.1 = key then (kv.1, KeepAlive kv.2 now) else kv },
      [], Except.ok (KeepAlive r now))
  | none =>
    match t.loadData with
    | some f =>
      match f key args with
      | some item =>
        let res := Add t now key item.data item.lifeSpan
        (res.1, res.2.1, Except.ok item)
      | none => (t, [], Except.error Err.keyNotFoundOrLoadable)
    | none => (t, [], Except.error Err.keyNotFound)

/-- `CacheTable.Delete` just wraps `deleteInternal` under the table lock. -/
def Delete (t : CacheTable) (key : Nat) :
    CacheTable × List Event × Except Err CacheItem :=
  deleteInternal t key

/-- `CacheTable.Flush`: drop all items and stop the pending timer.  Note
that the Go code does not reset `cleanupInterval` here. -/
def Flush (t : CacheTable) : CacheTable :=
  { t with items := [], cleanupTimer := none }

/-- `CacheTable.Count`. -/
def Count (t : CacheTable) : Nat :=
  t.items.length

/-- The sort order of `CacheItemPairList` (`Less(i,j) = p[i].AccessCount >
p[j].AccessCount`), as the total preorder "descending by access count"
required by a comparison sort. -/
def byAccessCount (a b : Nat × Int) : Prop := b.2 ≤ a.2

instance : DecidableRel byAccessCount :=
  fun a b => inferInstanceAs (Decidable (b.2 ≤ a.2))

instance : IsTotal (Nat × Int) byAccessCount :=
  ⟨fun a b => le_total b.2 a.2⟩

instance : IsTrans (Nat × Int) byAccessCount :=
  ⟨fun _ _ _ h1 h2 => le_trans h2 h1⟩

/-- `CacheTable.MostAccessed`: collect (key, accessCount) pairs, sort them
descending by access count, and return the items found for the first
`count` keys (the Go loop breaks once `c >= count`, so a non-positive
`count` yields the empty list). -/
def MostAccessed (t : CacheTable) (count : Int) : List CacheItem :=
  let p := t.items.map fun kv => (kv.1, kv.2.accessCount)
  let sorted := List.insertionSort byAccessCount p
  (sorted.take count.toNat).filterMap fun pr => findItem t.items pr.1

/-- Well-formedness of the entry map as a map: keys are unique.  Every
table reachable through the API satisfies this (Go stores the entries in a
native map). -/
def WFkeys (t : CacheTable) : Prop := (t.items.map Prod.fst).Nodup

instance (t : CacheTable) : Decidable (WFkeys t) :=
  List.nodupDecidable _

/-- Full well-formedness: unique keys and every stored item's `key` field
agrees with its map key (all API insertions guarantee this). -/
def WF (t : CacheTable) : Prop :=
  WFkeys t ∧ ∀ kv ∈ t.items, kv.2.key = kv.1

instance (t : CacheTable) : Decidable (WF t) :=
  inferInstanceAs (Decidable (WFkeys t ∧ ∀ kv ∈ t.items, kv.2.key = kv.1))

/-- Specification helper: an entry survives the sweep at `now` when its
life span is zero or its idle time is still below its life span. -/
def survives (now : Int) (kv : Nat × CacheItem) : Bool :=
  kv.2.lifeSpan == 0 || decide (now - kv.2.accessedOn < kv.2.lifeSpan)

/-- Specification helper: the remaining life spans of the entries the sweep
at `now` keeps alive among those with nonzero life span, in map order. -/
def remainders (now : Int) (items : List (Nat × CacheItem)) : List Int :=
  items.filterMap fun kv =>
    if kv.2.lifeSpan ≠ 0 ∧ now - kv.2.accessedOn < kv.2.lifeSpan then
      some (kv.2.lifeSpan - (now - kv.2.accessedOn))
    else none

/-- Specification helper: one step of the smallest-duration fold of the
sweep (`0` is the "no candidate yet" sentinel). -/
def minStep (sm r : Int) : Int :=
  if sm = 0 ∨ r < sm then r else sm

/-- Specification helper: the smallest-duration fold of the sweep. -/
def minFold (sm : Int) (l : List Int) : Int :=
  l.foldl minStep sm

/-- A fresh table, as `Cache` (cache.go) creates one. -/
def emptyTable : CacheTable := ⟨[], none, 0, none, false, false⟩

/-- State after `Add(key 1, ttl 5)` at time 0 on a fresh table. -/
def tblA : CacheTable := (Add emptyTable 0 1 0 5).1

/-- State after flushing `tblA`. -/
def tblB : CacheTable := Flush tblA

/-- State after `Add(key 2, ttl 7)` at time 1 on the flushed table. -/
def tblC : CacheTable := (Add tblB 1 2 0 7).1

/-- A one-entry table (entry has zero life span). -/
def tbl6 : CacheTable := (Add emptyTable 0 1 3 0).1

/-- Concrete sweep scenario: an expired entry (key 1, life span 2, idle 5,
with a per-item callback), a live finite entry (key 2, life span 10) and an
eternal entry (key 3, life span 0); the about-to-delete callback is set. -/
def wtblSweep : CacheTable :=
  ⟨[(1, ⟨1, 10, 2, 0, 0, 0, true⟩), (2, ⟨2, 20, 10, 0, 0, 0, false⟩),
      (3, ⟨3, 30, 0, 0, 0, 0, false⟩)],
    some 2, 2, none, false, true⟩

/-- The item a concrete data loader returns: note its `key` field (7)
differs from the requested key (9), its access count is 3 and its per-item
callback is set, so it is observably different from a fresh item. -/
def ldItem : CacheItem := ⟨7, 77, 4, 9, 9, 3, true⟩

/-- A concrete data loader: knows key 9 only. -/
def loader : Nat → List Nat → Option CacheItem :=
  fun k _ => if k = 9 then some ldItem else none

/-- Concrete entry with zero life span and a per-item callback. -/
def itemOne : CacheItem := ⟨1, 11, 0, 0, 0, 2, true⟩

/-- Concrete entry with finite life span. -/
def itemTwo : CacheItem := ⟨2, 22, 6, 0, 1, 5, false⟩

/-- A concrete two-entry table with every callback configured. -/
def wtbl : CacheTable :=
  ⟨[(1, itemOne), (2, itemTwo)], some 6, 6, some loader, true, true⟩

/-! ### Lemmas about the entry map -/

theorem findItem_append_of_not_mem {done : List (Nat × CacheItem)}
    {k : Nat} (l : List (Nat × CacheItem))
    (h : k ∉ done.map Prod.fst) :
    findItem (done ++ l) k = findItem l k := by
  induction done with
  | nil => rfl
  | cons kv rest ih =>
    simp only [List.map_cons, List.mem_cons] at h
    push_neg at h
    simp only [List.cons_append, findItem]
    rw [if_neg (Ne.symm h.1)]
    exact ih h.2

theorem findItem_of_mem {l : List (Nat × CacheItem)} {k : Nat}
    {v : CacheItem} (hnd : (l.map Prod.fst).Nodup) (hm : (k, v) ∈ l) :
    findItem l k = some v := by
  induction l with
  | nil => simp at hm
  | cons kv rest ih =>
    simp only [List.map_cons, List.nodup_cons] at hnd
    rcases List.mem_cons.mp hm with h | h
    · simp [findItem, ← h]
    · have hk : kv.1 ≠ k := by
        intro he
        exact hnd.1 (he ▸ List.mem_map_of_mem Prod.fst h)
      simp only [findItem, if_neg hk]
      exact ih hnd.2 h

theorem removeKey_eq_self {l : List (Nat × CacheItem)} {k : Nat}
    (h : k ∉ l.map Prod.fst) : removeKey l k = l := by
  induction l with
  | nil => rfl
  | cons kv rest ih =>
    simp only [List.map_cons, List.mem_cons] at h
    push_neg at h
    simp only [removeKey, if_neg (Ne.symm h.1)]
    exact congrArg _ (ih h.2)

theorem removeKey_middle {done rest : List (Nat × CacheItem)} {k : Nat}
    {v : CacheItem} (h1 : k ∉ done.map Prod.fst)
    (h2 : k ∉ rest.map Prod.fst) :
    removeKey (done ++ (k, v) :: rest) k = done ++ rest := by
  induction done with
  | nil =>
    simp only [List.nil_append, removeKey, if_pos rfl]
    exact removeKey_eq_self h2
  | cons kv dtl ih =>
    simp only [List.map_cons, List.mem_cons] at h1
    push_neg at h1
    simp only [List.cons_append, removeKey, if_neg (Ne.symm h1.1)]
    exact congrArg _ (ih h1.2)

theorem removeKey_sublist (l : List (Nat × CacheItem)) (k : Nat) :
    (removeKey l k).Sublist l := by
  induction l with
  | nil => exact List.Sublist.refl _
  | cons kv rest ih =>
    by_cases h : kv.1 = k
    · simp only [removeKey, if_pos h]
      exact ih.cons _
    · simp only [removeKey, if_neg h]
      exact ih.cons₂ _

theorem not_mem_removeKey_keys (l : List (Nat × CacheItem)) (k : Nat) :
    k ∉ (removeKey l k).map Prod.fst := by
  induction l with
  | nil => simp [removeKey]
  | cons kv rest ih =>
    by_cases h : kv.1 = k
    · simpa only [removeKey, if_pos h] using ih
    · simp only [removeKey, if_neg h, List.map_cons, List.mem_cons]
      rintro (he | he)
      · exact h he.symm
      · exact ih he

theorem mem_removeKey_ne {l : List (Nat × CacheItem)} {k : Nat}
    {kv : Nat × CacheItem} (h : kv ∈ removeKey l k) : kv.1 ≠ k := by
  intro he
  have hmap : kv.1 ∈ (removeKey l k).map Prod.fst :=
    List.mem_map_of_mem Prod.fst h
  rw [he] at hmap
  exact not_mem_removeKey_keys l k hmap

theorem insert_keys_nodup {l : List (Nat × CacheItem)} {k : Nat}
    (v : CacheItem) (h : (l.map Prod.fst).Nodup) :
    (((removeKey l k ++ [(k, v)]).map Prod.fst)).Nodup := by
  have hsub : ((removeKey l k).map Prod.fst).Nodup :=
    ((removeKey_sublist l k).map Prod.fst).nodup h
  simp only [List.map_append, List.map_cons, List.map_nil]
  rw [List.nodup_append]
  refine ⟨hsub, List.nodup_singleton _, ?_⟩
  intro a ha hb
  simp only [List.mem_singleton] at hb
  exact not_mem_removeKey_keys l k (hb ▸ ha)

theorem findItem_insert_self (l : List (Nat × CacheItem)) (k : Nat)
    (v : CacheItem) :
    findItem (removeKey l k ++ [(k, v)]) k = some v := by
  rw [findItem_append_of_not_mem _ (not_mem_removeKey_keys l k)]
  simp [findItem]

/-! ### Characterization of the expiration sweep -/

theorem sweepLoop_eq (now : Int) (entries : List (Nat × CacheItem)) :
    ∀ (done : List (Nat × CacheItem)) (t : CacheTable) (evs : List Event)
      (sm : Int),
      t.items = done ++ entries →
      ((done ++ entries).map Prod.fst).Nodup →
      sweepLoop now entries t evs sm =
        ({ t with items := done ++ entries.filter (survives now) },
          evs ++ entries.flatMap (fun kv =>
            if survives now kv then []
            else delEvents t.hasAboutToDeleteItem kv),
          minFold sm (remainders now entries)) := by
  induction entries with
  | nil =>
    intro done t evs sm hitems _
    have hdone : done = t.items := by simpa using hitems.symm
    subst hdone
    simp only [sweepLoop, List.filter_nil, List.append_nil,
      List.flatMap_nil, minFold, List.foldl_nil]
    rfl
  | cons kv rest ih =>
    intro done t evs sm hitems hnd
    have hre : done ++ kv :: rest = (done ++ [kv]) ++ rest := by simp
    by_cases h0 : kv.2.lifeSpan = 0
    · have hsurv : survives now kv = true := by simp [survives, h0]
      have hnd' : (((done ++ [kv]) ++ rest).map Prod.fst).Nodup := by
        rw [← hre]; exact hnd
      have hitems' : t.items = (done ++ [kv]) ++ rest := by
        rw [hitems, hre]
      simp only [sweepLoop, if_pos h0]
      rw [ih (done ++ [kv]) t evs sm hitems' hnd']
      simp [List.filter_cons, hsurv, remainders, List.filterMap_cons, h0]
    · have hmid : ((kv.1 :: (done ++ rest).map Prod.fst)).Nodup := by
        have := List.nodup_middle.mp (by simpa using hnd)
        simpa using this
      have hk_done : kv.1 ∉ done.map Prod.fst := by
        have := (List.nodup_cons.mp hmid).1
        simp only [List.map_append, List.mem_append] at this
        exact fun hc => this (Or.inl hc)
      have hk_rest : kv.1 ∉ rest.map Prod.fst := by
        have := (List.nodup_cons.mp hmid).1
        simp only [List.map_append, List.mem_append] at this
        exact fun hc => this (Or.inr hc)
      have hnd' : (((done ++ rest)).map Prod.fst).Nodup :=
        (List.nodup_cons.mp hmid).2
      by_cases hexp : kv.2.lifeSpan ≤ now - kv.2.accessedOn
      · have hsurv : survives now kv = false := by
          simp only [survives, Bool.or_eq_false_iff, beq_eq_false_iff_ne,
            ne_eq, decide_eq_false_iff_not, not_lt]
          exact ⟨h0, hexp⟩
        have hfind : findItem t.items kv.1 = some kv.2 := by
          rw [hitems, findItem_append_of_not_mem _ hk_done]
          simp [findItem]
        have hdel : deleteInternal t kv.1 =
            ({ t with items := done ++ rest },
              delEvents t.hasAboutToDeleteItem kv, Except.ok kv.2) := by
          simp only [deleteInternal, hfind]
          rw [hitems, removeKey_middle hk_done hk_rest]
        simp only [sweepLoop, if_neg h0, if_pos hexp, hdel]
        rw [ih done { t with items := done ++ rest }
          (evs ++ delEvents t.hasAboutToDeleteItem kv) sm rfl hnd']
        simp [List.filter_cons, hsurv, remainders, List.filterMap_cons,
          h0, not_lt.mpr hexp]
      · have hlt : now - kv.2.accessedOn < kv.2.lifeSpan := not_le.mp hexp
        have hsurv : survives now kv = true := by
          simp [survives, hlt]
        have hnd' : (((done ++ [kv]) ++ rest).map Prod.fst).Nodup := by
          rw [← hre]; exact hnd
        have hitems' : t.items = (done ++ [kv]) ++ rest := by
          rw [hitems, hre]
        have hrem : remainders now (kv :: rest) =
            (kv.2.lifeSpan - (now - kv.2.accessedOn)) :: remainders now rest := by
          simp [remainders, List.filterMap_cons, h0, hlt]
        by_cases hc : sm = 0 ∨ kv.2.lifeSpan - (now - kv.2.accessedOn) < sm
        · simp only [sweepLoop, if_neg h0, if_neg hexp, if_pos hc]
          rw [ih (done ++ [kv]) t evs
            (kv.2.lifeSpan - (now - kv.2.accessedOn)) hitems' hnd']
          rw [hrem]
          simp [List.filter_cons, hsurv, minFold, minStep, hc]
        · simp only [sweepLoop, if_neg h0, if_neg hexp, if_neg hc]
          rw [ih (done ++ [kv]) t evs sm hitems' hnd']
          rw [hrem]
          simp [List.filter_cons, hsurv, minFold, minStep, hc]

theorem expirationCheck_eq (t : CacheTable) (now : Int) (h : WFkeys t) :
    expirationCheck t now =
      ({ t with
          items := t.items.filter (survives now),
          cleanupTimer :=
            if 0 < minFold 0 (remainders now t.items) then
              some (now + minFold 0 (remainders now t.items))
            else none,
          cleanupInterval := minFold 0 (remainders now t.items) },
        t.items.flatMap fun kv =>
          if survives now kv then []
          else delEvents t.hasAboutToDeleteItem kv) := by
  unfold expirationCheck
  rw [sweepLoop_eq now t.items [] { t with cleanupTimer := none } [] 0
    rfl (by simpa using h)]
  rfl

theorem remainders_pos (now : Int) (items : List (Nat × CacheItem)) :
    ∀ r ∈ remainders now items, 0 < r := by
  intro r hr
  simp only [remainders, List.mem_filterMap] at hr
  obtain ⟨kv, _, hif⟩ := hr
  by_cases hc : kv.2.lifeSpan ≠ 0 ∧ now - kv.2.accessedOn < kv.2.lifeSpan
  · rw [if_pos hc] at hif
    obtain ⟨_, h2⟩ := hc
    simp only [Option.some.injEq] at hif
    omega
  · rw [if_neg hc] at hif
    exact absurd hif (by simp)

theorem minFold_nil (sm : Int) : minFold sm [] = sm := rfl

theorem minFold_zero_cons (r : Int) (l : List Int) :
    minFold 0 (r :: l) = minFold r l := by
  simp [minFold, minStep]

theorem minFold_pos_spec (l : List Int) :
    ∀ sm : Int, 0 < sm → (∀ r ∈ l, 0 < r) →
      0 < minFold sm l ∧ minFold sm l ≤ sm ∧
        (∀ r ∈ l, minFold sm l ≤ r) ∧
        (minFold sm l = sm ∨ minFold sm l ∈ l) := by
  induction l with
  | nil => intro sm hsm _; exact ⟨hsm, le_refl _, by simp, Or.inl rfl⟩
  | cons r rest ih =>
    intro sm hsm hpos
    have hr : 0 < r := hpos r (List.mem_cons_self _ _)
    have hstep : minFold sm (r :: rest) = minFold (minStep sm r) rest := by
      simp [minFold]
    by_cases hc : r < sm
    · have hms : minStep sm r = r := by
        simp [minStep, hc]
      obtain ⟨h1, h2, h3, h4⟩ := ih r hr (fun x hx => hpos x (List.mem_cons_of_mem _ hx))
      rw [hstep, hms]
      refine ⟨h1, le_trans h2 (le_of_lt hc), ?_, ?_⟩
      · intro x hx
        rcases List.mem_cons.mp hx with hx | hx
        · exact hx ▸ h2
        · exact h3 x hx
      · rcases h4 with h4 | h4
        · exact Or.inr (by rw [h4]; exact List.mem_cons_self _ _)
        · exact Or.inr (List.mem_cons_of_mem _ h4)
    · have hms : minStep sm r = sm := by
        have hnc : ¬ (sm = 0 ∨ r < sm) := by
          rintro (h | h)
          · omega
          · exact hc h
        simp [minStep, hnc]
      obtain ⟨h1, h2, h3, h4⟩ := ih sm hsm (fun x hx => hpos x (List.mem_cons_of_mem _ hx))
      rw [hstep, hms]
      refine ⟨h1, h2, ?_, ?_⟩
      · intro x hx
        rcases List.mem_cons.mp hx with hx | hx
        · subst hx; exact le_trans h2 (not_lt.mp hc)
        · exact h3 x hx
      · rcases h4 with h4 | h4
        · exact Or.inl h4
        · exact Or.inr (List.mem_cons_of_mem _ h4)

/-! ### Claim theorems -/

/-- Claim C1: the quiescent-sweep invariant fails on the code.  After
`Add(key 1, ttl 5)` at time 0, `Flush`, then `Add(key 2, ttl 7)` at time 1,
the table holds an entry with nonzero idle TTL, yet no expiration sweep is
scheduled at all: `Flush` stops the timer but leaves `cleanupInterval = 5`,
so the second add's trigger test `7 < 5` fails and nothing is re-armed. -/
theorem flush_then_add_leaves_no_sweep_scheduled :
    tblC.cleanupTimer = none ∧
    (2, NewCacheItem 2 0 7 1) ∈ tblC.items ∧
    (NewCacheItem 2 0 7 1).lifeSpan ≠ 0 := by decide

/-- Claim C2: the claimed trigger condition fails on the code.  In the
post-flush state `tblB` no sweep is currently scheduled
(`cleanupTimer = none`) and the newly added entry's TTL (7) is nonzero, so
the claim requires the expiration check to be rescheduled; but the add
leaves the pending schedule exactly as it was (no timer, stale interval),
because the code compares the TTL against the stale recorded interval 5. -/
theorem add_after_flush_skips_reschedule :
    tblB.cleanupTimer = none ∧
    (0 : Int) < 7 ∧
    (Add tblB 1 2 0 7).1.cleanupTimer = none ∧
    (Add tblB 1 2 0 7).1.cleanupInterval = tblB.cleanupInterval := by decide

/-- Claim C5: `Delete` on an absent key fails with `keyNotFound` and leaves
the table unchanged; on a present key it fires the table's about-to-delete
callback with the entry, then the entry's own about-to-expire callback with
the key, removes the entry from storage, and returns the removed entry. -/
theorem delete_spec (t : CacheTable) (key : Nat) :
    (findItem t.items key = none →
      Delete t key = (t, [], Except.error Err.keyNotFound)) ∧
    (∀ r : CacheItem, findItem t.items key = some r →
      Delete t key =
        ({ t with items := removeKey t.items key },
          (if t.hasAboutToDeleteItem then [Event.tableDelete r] else []) ++
            (if r.aboutToExpire then [Event.itemEvict key] else []),
          Except.ok r)) := by
  constructor
  · intro h
    simp [Delete, deleteInternal, h]
  · intro r h
    simp [Delete, deleteInternal, h, delEvents]

/-- Witness for C5 at the concrete table `wtbl`, key 1. -/
theorem delete_spec_witness :
    findItem wtbl.items 1 = some itemOne ∧
    Delete wtbl 1 =
      ({ wtbl with items := removeKey wtbl.items 1 },
        (if wtbl.hasAboutToDeleteItem then [Event.tableDelete itemOne] else []) ++
          (if itemOne.aboutToExpire then [Event.itemEvict 1] else []),
        Except.ok itemOne) :=
  ⟨rfl, (delete_spec wtbl 1).2 itemOne rfl⟩

/-- Claim C6 counterexample: the claimed length `min(n, count())` fails for
a negative `n`.  On a one-entry table, `MostAccessed(-1)` returns the empty
list (length 0), while `min(-1, 1) = -1`. -/
theorem mostAccessed_negative_count_length_mismatch :
    ¬ (((MostAccessed tbl6 (-1)).length : Int) =
        min (-1) ((Count tbl6 : Int))) := by decide

/-- Claim C7: an entry whose life span is 0 is never removed by the
expiration sweep: any such entry present before the sweep is still present
after it, for every sweep time. -/
theorem zero_ttl_entry_survives_sweep (t : CacheTable) (now : Int)
    (kv : Nat × CacheItem) (h : WFkeys t) (hm : kv ∈ t.items)
    (h0 : kv.2.lifeSpan = 0) :
    kv ∈ (expirationCheck t now).1.items := by
  rw [expirationCheck_eq t now h]
  show kv ∈ t.items.filter (survives now)
  exact List.mem_filter.mpr ⟨hm, by simp [survives, h0]⟩

/-- Witness for C7: the zero-TTL entry of `wtblSweep` survives a sweep at
time 5 although it has been idle for 5 time units. -/
theorem zero_ttl_entry_survives_sweep_witness :
    WFkeys wtblSweep ∧
    (3, (⟨3, 30, 0, 0, 0, 0, false⟩ : CacheItem)) ∈ wtblSweep.items ∧
    (3, (⟨3, 30, 0, 0, 0, 0, false⟩ : CacheItem)) ∈
      (expirationCheck wtblSweep 5).1.items :=
  ⟨by decide, by decide,
    zero_ttl_entry_survives_sweep wtblSweep 5 _ (by decide) (by decide) rfl⟩

/-- Claim C10: `NotFoundAdd` on an absent key produces exactly the table and
callback invocations `Add` produces (so the added-item callback and the
expiration-check trigger behave identically) and returns `true`; on a
present key it returns `false`, fires no callback and changes nothing. -/
theorem notFoundAdd_spec (t : CacheTable) (now : Int) (key data : Nat)
    (L : Int) :
    (∀ r : CacheItem, findItem t.items key = some r →
      NotFoundAdd t now key data L = (t, [], false)) ∧
    (findItem t.items key = none →
      NotFoundAdd t now key data L =
        ((Add t now key data L).1, (Add t now key data L).2.1, true)) := by
  constructor
  · intro r h
    simp [NotFoundAdd, h]
  · intro h
    simp [NotFoundAdd, h, Add]

/-- Witness for C10: adding absent key 9 through `NotFoundAdd` matches
`Add`. -/
theorem notFoundAdd_spec_witness :
    findItem wtbl.items 9 = none ∧
    NotFoundAdd wtbl 4 9 1 3 =
      ((Add wtbl 4 9 1 3).1, (Add wtbl 4 9 1 3).2.1, true) :=
  ⟨rfl, (notFoundAdd_spec wtbl 4 9 1 3).2 rfl⟩

/-- Claim C3: a single sweep at time `now` deletes exactly the entries with
nonzero life span whose idle time reaches their life span, through the same
event sequence as `delete` (table callback then item callback); every other
entry stays.  When some surviving entry still has a finite remaining life
(`remainders` nonempty), the sweep records a strictly positive
`cleanupInterval` that is the minimum remaining life and arms the one-shot
timer to fire exactly that much later; otherwise no timer is armed. -/
theorem expiration_sweep_spec (t : CacheTable) (now : Int) (h : WFkeys t) :
    (expirationCheck t now).1.items = t.items.filter (survives now) ∧
    (expirationCheck t now).2 = t.items.flatMap (fun kv =>
        if survives now kv then []
        else delEvents t.hasAboutToDeleteItem kv) ∧
    (remainders now t.items = [] →
      (expirationCheck t now).1.cleanupTimer = none ∧
      (expirationCheck t now).1.cleanupInterval = 0) ∧
    (remainders now t.items ≠ [] →
      0 < (expirationCheck t now).1.cleanupInterval ∧
      (expirationCheck t now).1.cleanupInterval ∈ remainders now t.items ∧
      (∀ r ∈ remainders now t.items,
        (expirationCheck t now).1.cleanupInterval ≤ r) ∧
      (expirationCheck t now).1.cleanupTimer =
        some (now + (expirationCheck t now).1.cleanupInterval)) := by
  rw [expirationCheck_eq t now h]
  refine ⟨rfl, rfl, ?_, ?_⟩
  · intro hnil
    rw [hnil]
    exact ⟨rfl, rfl⟩
  · intro hne
    obtain ⟨r, rest, hcons⟩ := List.exists_cons_of_ne_nil hne
    have hpos := remainders_pos now t.items
    have hr : 0 < r := hpos r (by rw [hcons]; exact List.mem_cons_self _ _)
    have hrest : ∀ x ∈ rest, 0 < x := fun x hx =>
      hpos x (by rw [hcons]; exact List.mem_cons_of_mem _ hx)
    obtain ⟨h1, h2, h3, h4⟩ := minFold_pos_spec rest r hr hrest
    have hm : minFold 0 (remainders now t.items) = minFold r rest := by
      rw [hcons, minFold_zero_cons]
    rw [hm]
    refine ⟨h1, ?_, ?_, ?_⟩
    · rw [hcons]
      rcases h4 with h4 | h4
      · rw [h4]; exact List.mem_cons_self _ _
      · exact List.mem_cons_of_mem _ h4
    · intro x hx
      rw [hcons] at hx
      rcases List.mem_cons.mp hx with hx | hx
      · rw [hx]; exact h2
      · exact h3 x hx
    · show (if 0 < minFold r rest then some (now + minFold r rest) else none) =
        some (now + minFold r rest)
      rw [if_pos h1]

/-- Witness for C3 on the concrete sweep scenario `wtblSweep` at time 5:
the armed timer fires at `5 + cleanupInterval` and the interval is one of
the remaining lives. -/
theorem expiration_sweep_spec_witness :
    WFkeys wtblSweep ∧
    (expirationCheck wtblSweep 5).1.cleanupInterval ∈
      remainders 5 wtblSweep.items ∧
    (expirationCheck wtblSweep 5).1.cleanupTimer =
      some (5 + (expirationCheck wtblSweep 5).1.cleanupInterval) :=
  ⟨by decide,
    ((expiration_sweep_spec wtblSweep 5 (by decide)).2.2.2 (by decide)).2.1,
    ((expiration_sweep_spec wtblSweep 5 (by decide)).2.2.2 (by decide)).2.2.2⟩

/-- Auxiliary for C6: looking the sorted (key, count) pairs back up in the
entry map preserves length and descending order of access counts, provided
each pair's key resolves to an item carrying that count. -/
theorem filterMap_findItem_sorted (items : List (Nat × CacheItem)) :
    ∀ l : List (Nat × Int),
      (∀ pr ∈ l, ∃ it, findItem items pr.1 = some it ∧
        it.accessCount = pr.2) →
      List.Sorted byAccessCount l →
      List.Sorted (fun a b : CacheItem => b.accessCount ≤ a.accessCount)
          (l.filterMap fun pr => findItem items pr.1) ∧
        (l.filterMap fun pr => findItem items pr.1).length = l.length := by
  intro l
  induction l with
  | nil => intro _ _; simp
  | cons pr rest ih =>
    intro hall hsort
    obtain ⟨it, hit, hac⟩ := hall pr (List.mem_cons_self _ _)
    obtain ⟨ihs, ihl⟩ := ih
      (fun q hq => hall q (List.mem_cons_of_mem _ hq))
      ((List.sorted_cons.mp hsort).2)
    simp only [List.filterMap_cons, hit]
    constructor
    · refine List.sorted_cons.mpr ⟨?_, ihs⟩
      intro b hb
      obtain ⟨q, hq, hfq⟩ := List.mem_filterMap.mp hb
      obtain ⟨it', hit', hac'⟩ := hall q (List.mem_cons_of_mem _ hq)
      have hb' : b = it' := by
        rw [hit'] at hfq
        exact (Option.some.injEq _ _ ▸ hfq).symm
      have hle : q.2 ≤ pr.2 := (List.sorted_cons.mp hsort).1 q hq
      rw [hb', hac', hac]
      exact hle
    · simp [ihl]

/-- Claim C6 (amended): for every well-formed table state and every `n`,
`MostAccessed` returns entries in non-increasing order of access count, of
length `min(max(n,0), count())` — i.e. `min n count()` for `n ≥ 0`, and the
empty list for negative `n`. -/
theorem mostAccessed_sorted_and_length (t : CacheTable) (n : Int)
    (h : WFkeys t) :
    List.Sorted (fun a b : CacheItem => b.accessCount ≤ a.accessCount)
      (MostAccessed t n) ∧
    (MostAccessed t n).length = min n.toNat (Count t) := by
  have hMA : MostAccessed t n =
      ((List.insertionSort byAccessCount
          (t.items.map fun kv => (kv.1, kv.2.accessCount))).take n.toNat
        ).filterMap (fun pr => findItem t.items pr.1) := rfl
  rw [hMA]
  have hall : ∀ pr ∈ (List.insertionSort byAccessCount
      (t.items.map fun kv => (kv.1, kv.2.accessCount))).take n.toNat,
      ∃ it, findItem t.items pr.1 = some it ∧ it.accessCount = pr.2 := by
    intro pr hpr
    have h1 : pr ∈ List.insertionSort byAccessCount
        (t.items.map fun kv => (kv.1, kv.2.accessCount)) :=
      (List.take_sublist _ _).subset hpr
    have h2 : pr ∈ t.items.map fun kv => (kv.1, kv.2.accessCount) :=
      (List.perm_insertionSort byAccessCount _).mem_iff.mp h1
    obtain ⟨kv, hkv, hpr'⟩ := List.mem_map.mp h2
    exact ⟨kv.2, by rw [← hpr']; exact findItem_of_mem h hkv,
      by rw [← hpr']⟩
  have hsort : List.Sorted byAccessCount
      ((List.insertionSort byAccessCount
        (t.items.map fun kv => (kv.1, kv.2.accessCount))).take n.toNat) :=
    List.Pairwise.sublist (List.take_sublist _ _)
      (List.sorted_insertionSort byAccessCount _)
  obtain ⟨hA, hB⟩ := filterMap_findItem_sorted t.items _ hall hsort
  refine ⟨hA, ?_⟩
  rw [hB, List.length_take,
    (List.perm_insertionSort byAccessCount _).length_eq]
  simp [Count]

/-- Witness for the amended C6 at the concrete table `wtbl` with `n = 5`. -/
theorem mostAccessed_sorted_and_length_witness :
    WFkeys wtbl ∧
    List.Sorted (fun a b : CacheItem => b.accessCount ≤ a.accessCount)
      (MostAccessed wtbl 5) ∧
    (MostAccessed wtbl 5).length = min (Int.toNat 5) (Count wtbl) :=
  ⟨by decide, (mostAccessed_sorted_and_length wtbl 5 (by decide)).1,
    (mostAccessed_sorted_and_length wtbl 5 (by decide)).2⟩

/-- After `addInternal` stores an item whose access stamp is the current
time, the item is found under its key — also when the insertion triggers an
immediate sweep, since a just-stamped item can never be expired. -/
theorem addInternal_found (t : CacheTable) (item : CacheItem) (now : Int)
    (hacc : item.accessedOn = now) (h : WFkeys t) :
    findItem (addInternal t item now).1.items item.key = some item := by
  simp only [addInternal]
  by_cases hc : 0 < item.lifeSpan ∧
      (t.cleanupInterval = 0 ∨ item.lifeSpan < t.cleanupInterval)
  · rw [if_pos hc]
    rw [expirationCheck_eq
      { t with items := removeKey t.items item.key ++ [(item.key, item)] }
      now (show WFkeys _ from insert_keys_nodup item h)]
    show findItem ((removeKey t.items item.key ++
        [(item.key, item)]).filter (survives now)) item.key = some item
    have hsurv : survives now (item.key, item) = true := by
      have := hc.1
      simp [survives, hacc]
      omega
    have hmem : (item.key, item) ∈ (removeKey t.items item.key ++
        [(item.key, item)]).filter (survives now) :=
      List.mem_filter.mpr ⟨by simp, hsurv⟩
    have hnd : (((removeKey t.items item.key ++
        [(item.key, item)]).filter (survives now)).map Prod.fst).Nodup :=
      ((List.filter_sublist _).map Prod.fst).nodup (insert_keys_nodup item h)
    exact findItem_of_mem hnd hmem
  · rw [if_neg hc]
    exact findItem_insert_self t.items item.key item

/-- After `Add t now key data L`, the freshly constructed item is stored
under `key`. -/
theorem findItem_after_add (t : CacheTable) (now : Int) (key data : Nat)
    (L : Int) (h : WFkeys t) :
    findItem (Add t now key data L).1.items key =
      some (NewCacheItem key data L now) :=
  addInternal_found t (NewCacheItem key data L now) now rfl h

/-- Claim C4: `Value` hits an existing key by keep-aliving and returning the
stored entry; on a miss with no loader it fails with `keyNotFound`; on a
miss where the loader yields nothing it fails with
`keyNotFoundOrLoadable`; both failures leave the table untouched.  On a
miss where the loader yields an item, `Value` succeeds with the loader's
item and the requested key now maps to a fresh item carrying the loaded
value and life span. -/
theorem value_spec (t : CacheTable) (now : Int) (key : Nat)
    (args : List Nat) (hWF : WFkeys t) :
    (∀ r : CacheItem, findItem t.items key = some r →
      Value t now key args =
        ({ t with items := t.items.map fun kv =>
            if kv.1 = key then (kv.1, KeepAlive kv.2 now) else kv },
          [], Except.ok (KeepAlive r now))) ∧
    (findItem t.items key = none → t.loadData = none →
      Value t now key args = (t, [], Except.error Err.keyNotFound)) ∧
    (∀ f, findItem t.items key = none → t.loadData = some f →
      f key args = none →
      Value t now key args =
        (t, [], Except.error Err.keyNotFoundOrLoadable)) ∧
    (∀ f item, findItem t.items key = none → t.loadData = some f →
      f key args = some item →
      (Value t now key args).2.2 = Except.ok item ∧
      findItem (Value t now key args).1.items key =
        some (NewCacheItem key item.data item.lifeSpan now)) := by
  refine ⟨?_, ?_, ?_, ?_⟩
  · intro r h
    simp [Value, h]
  · intro h hl
    simp [Value, h, hl]
  · intro f h hl hf
    simp [Value, h, hl, hf]
  · intro f item h hl hf
    have hv : Value t now key args =
        ((Add t now key item.data item.lifeSpan).1,
          (Add t now key item.data item.lifeSpan).2.1, Except.ok item) := by
      simp [Value, h, hl, hf]
    rw [hv]
    exact ⟨rfl, findItem_after_add t now key item.data item.lifeSpan hWF⟩

/-- Witness for C4: a miss on key 9 of `wtbl` is served by the loader; the
loader's own item is returned while a fresh item with the loaded value 77
and life span 4 is stored under key 9. -/
theorem value_spec_witness :
    WFkeys wtbl ∧ findItem wtbl.items 9 = none ∧
    wtbl.loadData = some loader ∧ loader 9 [] = some ldItem ∧
    (Value wtbl 3 9 []).2.2 = Except.ok ldItem ∧
    findItem (Value wtbl 3 9 []).1.items 9 =
      some (NewCacheItem 9 ldItem.data ldItem.lifeSpan 3) :=
  ⟨by decide, rfl, rfl, rfl,
    ((value_spec wtbl 3 9 [] (by decide)).2.2.2 loader ldItem rfl rfl rfl).1,
    ((value_spec wtbl 3 9 [] (by decide)).2.2.2 loader ldItem rfl rfl rfl).2⟩

/-- An event in a conditional singleton list is that singleton. -/
theorem eq_of_mem_ite_singleton {c : Prop} [Decidable c] {x e : Event}
    (h : e ∈ (if c then [x] else [])) : e = x := by
  by_cases hc : c
  · rw [if_pos hc] at h
    simpa using h
  · rw [if_neg hc] at h
    simp at h

/-- The events of one internal deletion concern only that entry. -/
theorem mem_delEvents {flag : Bool} {kv : Nat × CacheItem} {e : Event}
    (h : e ∈ delEvents flag kv) :
    e = Event.tableDelete kv.2 ∨ e = Event.itemEvict kv.1 := by
  simp only [delEvents, List.mem_append] at h
  rcases h with h | h
  · exact Or.inl (eq_of_mem_ite_singleton h)
  · exact Or.inr (eq_of_mem_ite_singleton h)

/-- Full characterization of the callback invocations of `addInternal`:
the added-item callback (when configured), followed, when the insertion
triggers an immediate sweep, by that sweep's deletion events over the
post-insertion map. -/
theorem addInternal_events (t : CacheTable) (item : CacheItem) (now : Int)
    (h : WFkeys t) :
    (addInternal t item now).2 =
      (if t.hasAddedItem then [Event.added item] else []) ++
        (if 0 < item.lifeSpan ∧
            (t.cleanupInterval = 0 ∨ item.lifeSpan < t.cleanupInterval) then
          (removeKey t.items item.key ++ [(item.key, item)]).flatMap
            (fun kv => if survives now kv then []
              else delEvents t.hasAboutToDeleteItem kv)
        else []) := by
  simp only [addInternal]
  by_cases hc : 0 < item.lifeSpan ∧
      (t.cleanupInterval = 0 ∨ item.lifeSpan < t.cleanupInterval)
  · simp only [if_pos hc]
    rw [expirationCheck_eq
      { t with items := removeKey t.items item.key ++ [(item.key, item)] }
      now (show WFkeys _ from insert_keys_nodup item h)]
  · simp only [if_neg hc]
    simp

/-- Claim C9: `Add` on a key that is already present replaces the stored
entry wholesale with a freshly constructed one — zero access count,
creation and access stamps at the insertion time, no per-item callback —
and neither the table's about-to-delete callback nor the old entry's
about-to-expire callback fires for the overwritten entry (no deletion
event of the add concerns that key). -/
theorem add_overwrite_fresh_no_evict (t : CacheTable) (now : Int)
    (key data : Nat) (L : Int) (old : CacheItem) (hWF : WF t)
    (_hold : findItem t.items key = some old) :
    (Add t now key data L).2.2 = NewCacheItem key data L now ∧
    findItem (Add t now key data L).1.items key =
      some (NewCacheItem key data L now) ∧
    (NewCacheItem key data L now).accessCount = 0 ∧
    (NewCacheItem key data L now).createdOn = now ∧
    (NewCacheItem key data L now).accessedOn = now ∧
    (NewCacheItem key data L now).aboutToExpire = false ∧
    (∀ e ∈ (Add t now key data L).2.1,
      e ≠ Event.itemEvict key ∧
        ∀ r : CacheItem, e = Event.tableDelete r → r.key ≠ key) := by
  refine ⟨rfl, findItem_after_add t now key data L hWF.1, rfl, rfl, rfl,
    rfl, ?_⟩
  intro e he
  have hev : (Add t now key data L).2.1 =
      (addInternal t (NewCacheItem key data L now) now).2 := rfl
  rw [hev, addInternal_events t _ now hWF.1] at he
  rcases List.mem_append.mp he with h1 | h1
  · have hadded : e = Event.added (NewCacheItem key data L now) :=
      eq_of_mem_ite_singleton h1
    subst hadded
    exact ⟨by simp, fun r hr => by simp at hr⟩
  · by_cases hc : 0 < (NewCacheItem key data L now).lifeSpan ∧
        (t.cleanupInterval = 0 ∨
          (NewCacheItem key data L now).lifeSpan < t.cleanupInterval)
    · rw [if_pos hc] at h1
      obtain ⟨kv, hkv, hin⟩ := List.mem_flatMap.mp h1
      by_cases hs : survives now kv
      · rw [if_pos hs] at hin
        simp at hin
      · rw [if_neg hs] at hin
        have hmm : kv ∈ removeKey t.items key := by
          rcases List.mem_append.mp hkv with hm | hm
          · exact hm
          · exfalso
            have hkv' : kv = (key, NewCacheItem key data L now) := by
              simpa using hm
            apply hs
            rw [hkv']
            have hL : (0 : Int) < L := hc.1
            simp [survives, NewCacheItem]
            omega
        have hkne : kv.1 ≠ key := mem_removeKey_ne hmm
        have hmem : kv ∈ t.items := (removeKey_sublist t.items key).subset hmm
        have hkey2 : kv.2.key ≠ key := by
          rw [hWF.2 kv hmem]
          exact hkne
        rcases mem_delEvents hin with hE | hE
        · subst hE
          refine ⟨by simp, fun r hr => ?_⟩
          simp only [Event.tableDelete.injEq] at hr
          rw [← hr]
          exact hkey2
        · subst hE
          refine ⟨?_, fun r hr => by simp at hr⟩
          simp only [ne_eq, Event.itemEvict.injEq]
          exact hkne
    · rw [if_neg hc] at h1
      simp at h1

/-- Witness for C9: overwriting present key 1 of `wtbl` stores the fresh
item built at time 4. -/
theorem add_overwrite_fresh_no_evict_witness :
    WF wtbl ∧ findItem wtbl.items 1 = some itemOne ∧
    findItem (Add wtbl 4 1 99 2).1.items 1 = some (NewCacheItem 1 99 2 4) :=
  ⟨by decide, rfl,
    (add_overwrite_fresh_no_evict wtbl 4 1 99 2 itemOne (by decide)
      rfl).2.1⟩

/-- Claim C8: on a loader-served miss the caller receives the loader's own
item, while the table stores a distinct fresh item sharing only the
requested key, the loaded value and life span (fresh timestamps, zero
access count, no callback); a subsequent `Value` for the key returns the
keep-alived stored item, not the loader's. -/
theorem value_load_fresh_item (t : CacheTable) (now now2 : Int) (key : Nat)
    (args : List Nat) (f : Nat → List Nat → Option CacheItem)
    (item : CacheItem) (hWF : WFkeys t)
    (habs : findItem t.items key = none) (hld : t.loadData = some f)
    (hf : f key args = some item) :
    (Value t now key args).2.2 = Except.ok item ∧
    findItem (Value t now key args).1.items key =
      some (NewCacheItem key item.data item.lifeSpan now) ∧
    (Value (Value t now key args).1 now2 key args).2.2 =
      Except.ok (KeepAlive (NewCacheItem key item.data item.lifeSpan now)
        now2) := by
  have hv : Value t now key args =
      ((Add t now key item.data item.lifeSpan).1,
        (Add t now key item.data item.lifeSpan).2.1, Except.ok item) := by
    simp [Value, habs, hld, hf]
  have hfind : findItem (Add t now key item.data item.lifeSpan).1.items key =
      some (NewCacheItem key item.data item.lifeSpan now) :=
    findItem_after_add t now key item.data item.lifeSpan hWF
  refine ⟨by rw [hv], by rw [hv]; exact hfind, ?_⟩
  rw [hv]
  simp [Value, hfind]

/-- Witness for C8 on `wtbl`: the loaded item (access count 3, key field 7,
callback set) is returned first, but the second lookup returns the
keep-alived fresh stored item. -/
theorem value_load_fresh_item_witness :
    WFkeys wtbl ∧
    (Value wtbl 3 9 []).2.2 = Except.ok ldItem ∧
    (Value (Value wtbl 3 9 []).1 8 9 []).2.2 =
      Except.ok (KeepAlive (NewCacheItem 9 ldItem.data ldItem.lifeSpan 3) 8) :=
  ⟨by decide,
    (value_load_fresh_item wtbl 3 8 9 [] loader ldItem (by decide)
      rfl rfl rfl).1,
    (value_load_fresh_item wtbl 3 8 9 [] loader ldItem (by decide)
      rfl rfl rfl).2.2⟩

end Xscache
